import Mathlib

/-!
Verification of the `cpp-misc` repository's counting-scan and
contended-counters components against their natural-language specification.

The embeddings below are value-level translations of the C++ sources:
machine integers of width `w` are natural numbers reduced modulo `2 ^ w` at
each operation where the C++ type would wrap, fallible paths (reaching
`__builtin_unreachable()` on a violated assumption) return `Option`, and the
four-thread increment program of `false_sharing.cpp` is a labeled small-step
transition system over explicit states.
-/

namespace CppMisc

/-- Embedding of the `is_even` generic lambda from
`simd_prefers_32bit_data.bench.cpp`: `(el % 2 == 0)` converted to the
integral result type, i.e. `1` when the element is even and `0` otherwise.
The numeric value is independent of the result type `T`. -/
def is_even (el : Nat) : Nat :=
  if el % 2 = 0 then 1 else 0

/-- Embedding of `mcount_if<ResType>` from `simd_prefers_32bit_data.bench.cpp`:
`result` starts at `0` and accumulates `pred(*first)` over the sequence, in a
`ResType` of bit-width `w`, hence each addition is reduced modulo `2 ^ w`. -/
def mcount_if (w : Nat) (xs : List Nat) : Nat :=
  xs.foldl (fun result el => (result + is_even el) % 2 ^ w) 0

/-- Reference definition taken from the spec's words (section 8): iterate over
the sequence and count the elements whose value modulo 2 is zero. This is the
spec-side definition that the code-side `mcount_if` is compared against. -/
def specCountEven (xs : List Nat) : Nat :=
  xs.countP (fun el => el % 2 = 0)

/-- Embedding of `values_per_ymmword<T>()` from `aligned_unreachable.md`:
`32 / sizeof(T)`, parameterized by `sizeofT = sizeof(T)` in bytes. -/
def values_per_ymmword (sizeofT : Nat) : Nat :=
  32 / sizeofT

/-- The accumulation loop shared by both instantiations of `count_even` in
`aligned_unreachable.md`: `result += (data[i] % 2 == 0)` in a `T` of bit-width
`w`, scanning `data` from index `0` to `size - 1`. -/
def count_even_loop (w : Nat) (data : List Nat) : Nat :=
  data.foldl (fun result el => (result + (if el % 2 = 0 then 1 else 0)) % 2 ^ w) 0

/-- Embedding of `count_even<MORE_OPTIMIZATIONS, T>` from
`aligned_unreachable.md`. When `MORE_OPTIMIZATIONS` holds, the function
executes `__builtin_unreachable()` if `size % values_per_ymmword<T>() != 0`
or `size == 0`, and `std::assume_aligned<32>(data)` makes a pointer that is
not 32-byte aligned undefined as well; undefined behaviour is modelled as
`none`. `w` is the bit-width of `T`, `sizeofT` its size in bytes, and
`aligned` records whether `data`'s storage is 32-byte aligned. -/
def count_even (moreOpt : Bool) (w sizeofT : Nat) (aligned : Bool)
    (data : List Nat) : Option Nat :=
  if moreOpt && (decide (data.length % values_per_ymmword sizeofT ≠ 0)
      || decide (data.length = 0) || !aligned) then
    none
  else
    some (count_even_loop w data)

/-- Embedding of the `is_even_int` lambda from
`bool_returned_prevents_vectorization.bench.cpp`: `(el % 2 == 0)` returned as
an `int` (`1` or `0`). The C++ `%` is the truncating remainder, `Int.tmod`. -/
def is_even_int (el : Int) : Int :=
  if el.tmod 2 = 0 then 1 else 0

/-- Embedding of `_Iter_pred_bool<_Predicate>::operator()` from
`bool_returned_prevents_vectorization.bench.cpp`: applies the wrapped
predicate and converts its `int` result to `bool` (the nonzero test). -/
def Iter_pred_bool (pred : Int → Int) (el : Int) : Bool :=
  pred el != 0

/-- Embedding of `_Iter_pred_auto<_Predicate>::operator()` from
`bool_returned_prevents_vectorization.bench.cpp`: applies the wrapped
predicate, keeping its original `int` return type. -/
def Iter_pred_auto (pred : Int → Int) (el : Int) : Int :=
  pred el

/-- Embedding of `mcount_if` from
`bool_returned_prevents_vectorization.bench.cpp`: `if (pred(first)) ++result`
over the sequence. The C++ `if` contextually converts the predicate's result
to `bool`; `test` is the wrapped predicate after that conversion. The
accumulator has the iterator's `difference_type`; a `std::vector<int>`'s
length can never overflow it, so it is modelled as an unbounded integer. -/
def bv_mcount_if (test : Int → Bool) (xs : List Int) : Int :=
  xs.foldl (fun result el => if test el then result + 1 else result) 0

/-- Embedding of `std::count_if`, translated from the library implementation
quoted in `bool_returned_prevents_vectorization.md`: a counter of the
iterator's `difference_type` starting at `0`, incremented when the
predicate's result converts to `true`. -/
def std_count_if (pred : Int → Int) (xs : List Int) : Int :=
  xs.foldl (fun r el => if pred el != 0 then r + 1 else r) 0

/-- Embedding of `version1` from
`bool_returned_prevents_vectorization.bench.cpp`: `mcount_if` with the
bool-coercing wrapper `_Iter_pred_bool{is_even_int}`. -/
def version1 (vec : List Int) : Int :=
  bv_mcount_if (fun el => Iter_pred_bool is_even_int el) vec

/-- Embedding of `version2`: `mcount_if` with the type-preserving wrapper
`_Iter_pred_auto{is_even_int}`; the `int` result is converted to `bool` at
the `if` inside the loop. -/
def version2 (vec : List Int) : Int :=
  bv_mcount_if (fun el => Iter_pred_auto is_even_int el != 0) vec

/-- Embedding of `version3`: `std::count_if` with `is_even_int`. -/
def version3 (vec : List Int) : Int :=
  std_count_if is_even_int vec

/-- Memory accesses a scan can perform on its input sequence, identified by
element index; used to make the read/write behaviour of the loop explicit. -/
inductive MemEvent where
  | read (idx : Nat)
  | write (idx : Nat) (val : Nat)
deriving DecidableEq

/-- Instrumented embedding of `mcount_if<ResType>` from
`simd_prefers_32bit_data.bench.cpp`: the same loop, additionally recording,
in execution order, every access the loop makes to the input sequence. Each
iteration performs exactly one access: the read `*first` at offset `i` from
the initial iterator. `i` is the offset of the current iterator and `result`
the accumulator. -/
def mcount_if_instr (w : Nat) : Nat → Nat → List Nat → Nat × List MemEvent
  | _, result, [] => (result, [])
  | i, result, el :: rest =>
    let next := mcount_if_instr w (i + 1) ((result + is_even el) % 2 ^ w) rest
    (next.1, MemEvent.read i :: next.2)

/-- Per-thread iteration count of `do_stuff` in `false_sharing.cpp`:
`1 << 26`. -/
def NUM_INCS : Nat := 2 ^ 26

/-- State of the `false_sharing.cpp` program: the `results` array of `K`
`std::uint64_t` counters (`Storage::val`, values modulo `2 ^ 64`) and, for
each worker thread, how many iterations of its `do_stuff` loop remain. -/
@[ext]
structure CCState (K : Nat) where
  results : Fin K → Nat
  remaining : Fin K → Nat

/-- The counter index thread `t` is bound to at spawn time: `main` spawns
`std::thread tk(do_stuff, k)` for `k = 0, 1, 2, 3`, so thread `t` is bound
to index `t`. -/
def boundIdx (K : Nat) (t : Fin K) : Fin K := t

/-- One loop iteration of `do_stuff` executed by thread `t`: when iterations
remain, `++ref.val` increments the counter at the thread's bound index
(wrapping modulo `2 ^ 64` as `std::uint64_t` does) and one fewer iteration
remains. `pad` records the storage alignment choice (`alignas(8)` vs
`alignas(64)`); it appears in no rule, reflecting that alignment never
changes a transition's effect. -/
inductive ccStep (K : Nat) (pad : Bool) (t : Fin K) :
    CCState K → CCState K → Prop where
  | inc (s : CCState K) (h : s.remaining t ≠ 0) :
      ccStep K pad t s
        ⟨Function.update s.results (boundIdx K t)
            ((s.results (boundIdx K t) + 1) % 2 ^ 64),
          Function.update s.remaining t (s.remaining t - 1)⟩

/-- Interleaved execution of the `K` worker threads: the reflexive-transitive
closure of "some thread takes a step". -/
def ccReach (K : Nat) (pad : Bool) : CCState K → CCState K → Prop :=
  Relation.ReflTransGen (fun s s' => ∃ t, ccStep K pad t s s')

/-- Initial state of `false_sharing.cpp`: every counter is zero-initialized
and every thread has all `NUM_INCS` iterations ahead of it. -/
def ccInit (K : Nat) : CCState K :=
  ⟨fun _ => 0, fun _ => NUM_INCS⟩

/-- Invariant of the execution: each counter holds exactly the number of
iterations its owning thread has already completed. -/
def ccInv {K : Nat} (s : CCState K) : Prop :=
  ∀ k, s.results k + s.remaining k = NUM_INCS

/-- Intermediate execution state in which the first `j` threads have finished
all their increments and the rest have not started. -/
def ccMid (j : Nat) : CCState 4 :=
  ⟨fun k => if (k : Nat) < j then NUM_INCS else 0,
    fun k => if (k : Nat) < j then 0 else NUM_INCS⟩

/-- Final state of `false_sharing.cpp`: every thread has finished and every
counter holds `NUM_INCS`. -/
def ccFinal : CCState 4 :=
  ⟨fun _ => NUM_INCS, fun _ => 0⟩

/-- Key accumulator lemma: folding `(· + is_even ·) % 2 ^ w` from any start
value below the modulus computes the even-count plus that start value,
modulo `2 ^ w`. -/
theorem foldl_mod_eq (w : Nat) (xs : List Nat) :
    ∀ a : Nat, a < 2 ^ w →
      xs.foldl (fun result el => (result + is_even el) % 2 ^ w) a
        = (a + specCountEven xs) % 2 ^ w := by
  induction xs with
  | nil =>
      intro a ha
      simp [specCountEven, Nat.mod_eq_of_lt ha]
  | cons x rest ih =>
      intro a ha
      have hlt : (a + is_even x) % 2 ^ w < 2 ^ w :=
        Nat.mod_lt _ (Nat.pos_pow_of_pos w (by norm_num))
      simp only [List.foldl_cons]
      rw [ih _ hlt, Nat.mod_add_mod]
      congr 1
      simp only [specCountEven, List.countP_cons, is_even]
      by_cases h : x % 2 = 0
      · simp [h]
        omega
      · simp [h]

/-- The code-side scan always equals the spec count reduced modulo the
accumulator's range. -/
theorem mcount_if_eq_mod (w : Nat) (xs : List Nat) :
    mcount_if w xs = specCountEven xs % 2 ^ w := by
  unfold mcount_if
  have h := foldl_mod_eq w xs 0 (Nat.pos_pow_of_pos w (by norm_num))
  simpa using h

/-- The loop of `count_even` computes the same value as `mcount_if` at the
same accumulator width: both are the spec count modulo `2 ^ w`. -/
theorem count_even_loop_eq_mod (w : Nat) (xs : List Nat) :
    count_even_loop w xs = specCountEven xs % 2 ^ w := by
  have h : count_even_loop w xs = mcount_if w xs := by
    unfold count_even_loop mcount_if is_even
    rfl
  rw [h, mcount_if_eq_mod]

/-- The instrumented scan records exactly one read per element, at
consecutive offsets starting from the current iterator offset, and computes
the same accumulator value as the uninstrumented loop. -/
theorem mcount_if_instr_spec (w : Nat) :
    ∀ (xs : List Nat) (i a : Nat),
      (mcount_if_instr w i a xs).2
          = (List.range' i xs.length).map MemEvent.read ∧
        (mcount_if_instr w i a xs).1
          = xs.foldl (fun result el => (result + is_even el) % 2 ^ w) a := by
  intro xs
  induction xs with
  | nil => intro i a; simp [mcount_if_instr]
  | cons x rest ih =>
      intro i a
      have h := ih (i + 1) ((a + is_even x) % 2 ^ w)
      simp [mcount_if_instr, List.range'_succ, h.1, h.2]

/-- C1: for every sequence and every accumulator width wide enough to hold
the true even-count without wraparound, `mcount_if` returns exactly the
number of even elements, with evenness given by the reference definition
that tests each element modulo 2. -/
theorem C1_mcount_if_counts_evens (w : Nat) (xs : List Nat)
    (h : specCountEven xs < 2 ^ w) :
    mcount_if w xs = specCountEven xs := by
  rw [mcount_if_eq_mod, Nat.mod_eq_of_lt h]

/-- Witness for C1 at width 32 and the sequence `[2, 3, 4, 5, 6]`. -/
theorem C1_witness :
    specCountEven [2, 3, 4, 5, 6] < 2 ^ 32 ∧
      mcount_if 32 [2, 3, 4, 5, 6] = specCountEven [2, 3, 4, 5, 6] :=
  ⟨by decide, C1_mcount_if_counts_evens 32 [2, 3, 4, 5, 6] (by decide)⟩

/-- C3: the results of the scan at accumulator widths 8, 16, 32 and 64 all
agree whenever the true even-count fits in the narrowest width (8 bits). -/
theorem C3_width_independent (xs : List Nat) (h : specCountEven xs < 2 ^ 8) :
    mcount_if 8 xs = mcount_if 16 xs ∧ mcount_if 16 xs = mcount_if 32 xs ∧
      mcount_if 32 xs = mcount_if 64 xs := by
  have h16 : specCountEven xs < 2 ^ 16 := lt_trans h (by norm_num)
  have h32 : specCountEven xs < 2 ^ 32 := lt_trans h (by norm_num)
  have h64 : specCountEven xs < 2 ^ 64 := lt_trans h (by norm_num)
  refine ⟨?_, ?_, ?_⟩ <;>
    rw [mcount_if_eq_mod, mcount_if_eq_mod] <;>
    rw [Nat.mod_eq_of_lt, Nat.mod_eq_of_lt] <;> assumption

/-- Witness for C3 at the sequence `[2, 4, 6, 1]` (even-count 3 < 256). -/
theorem C3_witness :
    specCountEven [2, 4, 6, 1] < 2 ^ 8 ∧
      (mcount_if 8 [2, 4, 6, 1] = mcount_if 16 [2, 4, 6, 1] ∧
        mcount_if 16 [2, 4, 6, 1] = mcount_if 32 [2, 4, 6, 1] ∧
        mcount_if 32 [2, 4, 6, 1] = mcount_if 64 [2, 4, 6, 1]) :=
  ⟨by decide, C3_width_independent [2, 4, 6, 1] (by decide)⟩

/-- C4: when the true even-count exceeds the accumulator's range the scan
returns the true count reduced modulo `2 ^ w`, with no error or check; in
particular a sequence with more than 255 even elements makes the 8-bit
instantiation return the true count modulo 256. -/
theorem C4_overflow_wraps (w : Nat) (xs : List Nat)
    (_h : 2 ^ w ≤ specCountEven xs) :
    mcount_if w xs = specCountEven xs % 2 ^ w ∧
      (255 < specCountEven xs → mcount_if 8 xs = specCountEven xs % 256) :=
  ⟨mcount_if_eq_mod w xs, fun _ => by
    have h8 := mcount_if_eq_mod 8 xs
    norm_num at h8
    exact h8⟩

set_option maxRecDepth 10000 in
/-- Witness for C4 at width 8 and 256 even elements: the result wraps. -/
theorem C4_witness :
    2 ^ 8 ≤ specCountEven (List.replicate 256 0) ∧
      mcount_if 8 (List.replicate 256 0)
        = specCountEven (List.replicate 256 0) % 2 ^ 8 :=
  ⟨by decide, (C4_overflow_wraps 8 (List.replicate 256 0) (by decide)).1⟩

/-- C10: on the concrete sequence `[2, 3, 4, 5, 6]` the scan returns 3
(the even values being 2, 4 and 6), at every accumulator width used. -/
theorem C10_concrete_sequence :
    mcount_if 8 [2, 3, 4, 5, 6] = 3 ∧ mcount_if 16 [2, 3, 4, 5, 6] = 3 ∧
      mcount_if 32 [2, 3, 4, 5, 6] = 3 ∧ mcount_if 64 [2, 3, 4, 5, 6] = 3 := by
  refine ⟨?_, ?_, ?_, ?_⟩ <;> decide

/-- C6: the three counting variants of
`bool_returned_prevents_vectorization.bench.cpp` — the bool-coercing
wrapper, the type-preserving wrapper, and `std::count_if` — return the same
count on every input vector: the coercion to `bool` never changes the
result. -/
theorem C6_versions_agree (vec : List Int) :
    version1 vec = version2 vec ∧ version2 vec = version3 vec :=
  ⟨rfl, rfl⟩

/-- C5 counterexample: the constrained variant `count_even<true>` does not
return 0 on the empty sequence — its stated assumption `size != 0` is
violated, the `__builtin_unreachable()` branch is taken, and the behaviour
is undefined (modelled as `none`). -/
theorem C5_counterexample :
    count_even true 8 1 true [] ≠ some 0 := by
  decide

/-- C5 (amended): on the empty sequence the scan returns 0 for every
accumulator width in every variant whose preconditions admit the empty
sequence: `mcount_if`, the unconstrained `count_even<false>`, and the three
versions of the bool-coercion benchmark. The constrained `count_even<true>`
is excluded, since `size == 0` violates its documented assumption. -/
theorem C5_empty_returns_zero (w sizeofT : Nat) (al : Bool) :
    mcount_if w [] = 0 ∧ count_even false w sizeofT al [] = some 0 ∧
      version1 [] = 0 ∧ version2 [] = 0 ∧ version3 [] = 0 :=
  ⟨rfl, rfl, rfl, rfl, rfl⟩

/-- C9: under the constrained variant's preconditions — the data 32-byte
aligned, the size nonzero and a multiple of `values_per_ymmword<T>()` — the
constrained `count_even<true>` agrees with the unconstrained
`count_even<false>`, and its `__builtin_unreachable` branch is never taken
(the result is defined). -/
theorem C9_constrained_matches_unconstrained (w sizeofT : Nat)
    (data : List Nat) (hn : data.length ≠ 0)
    (hm : data.length % values_per_ymmword sizeofT = 0) :
    count_even true w sizeofT true data = count_even false w sizeofT true data
      ∧ (count_even true w sizeofT true data).isSome := by
  unfold count_even
  simp [hn, hm]

/-- Witness for C9: 32 one-byte elements (one full YMMWORD), aligned. -/
theorem C9_witness :
    (List.replicate 32 (0 : Nat)).length ≠ 0 ∧
      (List.replicate 32 (0 : Nat)).length % values_per_ymmword 1 = 0 ∧
      count_even true 8 1 true (List.replicate 32 0)
        = count_even false 8 1 true (List.replicate 32 0) :=
  ⟨by decide, by decide,
    (C9_constrained_matches_unconstrained 8 1 (List.replicate 32 0)
      (by decide) (by decide)).1⟩

/-- C8: the scan has no side effect beyond reading the input: its access
trace consists of exactly one read per element, at indices 0 to N-1 in
order, with no write events at all, and the instrumented loop returns the
same value as `mcount_if`. -/
theorem C8_reads_once_in_order (w : Nat) (xs : List Nat) :
    (mcount_if_instr w 0 0 xs).2 = (List.range xs.length).map MemEvent.read ∧
      (∀ e ∈ (mcount_if_instr w 0 0 xs).2, ∀ j v, e ≠ MemEvent.write j v) ∧
      (mcount_if_instr w 0 0 xs).1 = mcount_if w xs := by
  have h := mcount_if_instr_spec w xs 0 0
  refine ⟨?_, ?_, h.2⟩
  · rw [h.1, List.range_eq_range']
  · intro e he j v
    rw [h.1] at he
    rcases List.mem_map.mp he with ⟨k, _, hk⟩
    simp [← hk]

/-- A single step preserves the counter invariant: the stepping thread's
counter is strictly below `NUM_INCS < 2 ^ 64`, so the wrapping increment is
an exact increment. -/
theorem ccStep_preserves_inv {K : Nat} {pad : Bool} {t : Fin K}
    {s s' : CCState K} (hs : ccStep K pad t s s') (hinv : ccInv s) :
    ccInv s' := by
  cases hs with
  | inc h =>
      intro k
      by_cases hk : k = t
      · subst hk
        have hb := hinv k
        have hlt : s.results k + 1 < 2 ^ 64 := by
          have : NUM_INCS < 2 ^ 64 := by norm_num [NUM_INCS]
          omega
        simp only [boundIdx, Function.update_same]
        rw [Nat.mod_eq_of_lt hlt]
        omega
      · have hb : boundIdx K t ≠ k := fun hc => hk (by simpa [boundIdx] using hc.symm)
        simp only [Function.update_noteq (Ne.symm hb), boundIdx,
          Function.update_noteq hk]
        exact hinv k

/-- Every state reachable from the initial state satisfies the counter
invariant. -/
theorem ccReach_inv {K : Nat} {pad : Bool} {s : CCState K}
    (h : ccReach K pad (ccInit K) s) : ccInv s := by
  induction h with
  | refl => intro k; simp [ccInit, ccInv]
  | tail _ hstep ih =>
      rcases hstep with ⟨t, hstep⟩
      exact ccStep_preserves_inv hstep ih

/-- Running thread `t` to completion: from any state where `t` has `r`
iterations left and its counter cannot wrap, the state where `t`'s counter
has absorbed all `r` increments and `t` is done is reachable. -/
theorem ccDrainTo (K : Nat) (pad : Bool) (t : Fin K) :
    ∀ (r : Nat) (s s' : CCState K), s.remaining t = r →
      s.results t + r < 2 ^ 64 →
      s'.results = Function.update s.results t (s.results t + r) →
      s'.remaining = Function.update s.remaining t 0 →
      ccReach K pad s s' := by
  intro r
  induction r with
  | zero =>
      intro s s' hr _ hres hrem
      have hs : s' = s := by
        ext k
        · rw [hres, Nat.add_zero, Function.update_eq_self]
        · rw [hrem, ← hr, Function.update_eq_self]
      rw [hs]
      exact Relation.ReflTransGen.refl
  | succ n ih =>
      intro s s' hr hlt hres hrem
      have hne : s.remaining t ≠ 0 := by omega
      refine Relation.ReflTransGen.head ⟨t, ccStep.inc s hne⟩ ?_
      have hmod : (s.results t + 1) % 2 ^ 64 = s.results t + 1 :=
        Nat.mod_eq_of_lt (by omega)
      refine ih _ s' ?_ ?_ ?_ ?_
      · simp [Function.update_same, hr]
      · simp only [boundIdx, Function.update_same, hmod]
        omega
      · rw [hres]
        funext k
        by_cases hk : k = t
        · subst hk
          simp only [boundIdx, Function.update_same, hmod]
          omega
        · simp [boundIdx, Function.update_noteq hk]
      · rw [hrem]
        funext k
        by_cases hk : k = t
        · subst hk; simp [Function.update_same]
        · simp [Function.update_noteq hk]

/-- Draining thread `j` advances the canonical interleaving from stage `j`
to stage `j + 1`. -/
theorem ccMid_step (pad : Bool) (j : Fin 4) :
    ccReach 4 pad (ccMid (j : Nat)) (ccMid ((j : Nat) + 1)) := by
  refine ccDrainTo 4 pad j NUM_INCS (ccMid (j : Nat)) (ccMid ((j : Nat) + 1))
    ?_ ?_ ?_ ?_
  · simp [ccMid]
  · norm_num [ccMid, NUM_INCS]
  · funext k
    by_cases hk : k = j
    · subst hk
      simp [ccMid, Function.update_same]
    · have hkj : (k : Nat) ≠ (j : Nat) := fun hc => hk (Fin.ext hc)
      simp only [ccMid, Function.update_noteq hk]
      by_cases hlt : (k : Nat) < (j : Nat) <;> simp [hlt] <;> omega
  · funext k
    by_cases hk : k = j
    · subst hk
      simp [ccMid, Function.update_same]
    · have hkj : (k : Nat) ≠ (j : Nat) := fun hc => hk (Fin.ext hc)
      simp only [ccMid, Function.update_noteq hk]
      by_cases hlt : (k : Nat) < (j : Nat) <;> simp [hlt] <;> omega

/-- The terminal state where all four counters hold `NUM_INCS` is reachable
from the initial state, for either alignment choice. -/
theorem ccFinal_reachable (pad : Bool) :
    ccReach 4 pad (ccInit 4) ccFinal := by
  have h0 : ccInit 4 = ccMid 0 := by
    ext k <;> simp [ccInit, ccMid]
  have h4 : ccMid 4 = ccFinal := by
    ext k <;> simp [ccMid, ccFinal, k.isLt]
  rw [h0, ← h4]
  exact .trans (ccMid_step pad 0)
    (.trans (ccMid_step pad 1) (.trans (ccMid_step pad 2) (ccMid_step pad 3)))

/-- C2: for `K ∈ {2, 4}` threads each performing `2 ^ 26` increments on its
own counter from 0, every completed execution — every reachable state in
which all threads have finished — has counter sum exactly `K * 2 ^ 26`
(268435456 for `K = 4`), for both the unpadded and the cache-line-padded
layout: the alignment choice `pad` never affects the sum. -/
theorem C2_sum_independent_of_alignment (K : Nat) (pad : Bool)
    (_hK : K = 2 ∨ K = 4) (s : CCState K)
    (hreach : ccReach K pad (ccInit K) s)
    (hdone : ∀ k, s.remaining k = 0) :
    Finset.univ.sum s.results = K * 2 ^ 26 ∧
      (K = 4 → Finset.univ.sum s.results = 268435456) := by
  have hinv := ccReach_inv hreach
  have hval : ∀ k, s.results k = NUM_INCS := by
    intro k
    have hb := hinv k
    rw [hdone k] at hb
    omega
  have hsum : Finset.univ.sum s.results = K * NUM_INCS := by
    have hc : Finset.univ.sum s.results
        = Finset.univ.sum (fun _ : Fin K => NUM_INCS) :=
      Finset.sum_congr rfl (fun k _ => hval k)
    rw [hc, Finset.sum_const, Finset.card_univ, Fintype.card_fin, smul_eq_mul]
  refine ⟨hsum, fun h4 => ?_⟩
  subst h4
  rw [hsum]
  norm_num [NUM_INCS]

/-- Witness for C2: the completed four-thread execution built in
`ccFinal_reachable`, under the unpadded layout. -/
theorem C2_witness :
    Finset.univ.sum ccFinal.results = 4 * 2 ^ 26 :=
  (C2_sum_independent_of_alignment 4 false (Or.inr rfl) ccFinal
    (ccFinal_reachable false) (fun _ => rfl)).1

/-- C7: every increment a worker thread performs targets only the counter at
the index that thread was bound to at spawn time — a step by thread `t` can
change no counter other than `boundIdx t` — and distinct threads are bound
to distinct indices, so no two threads ever write the same counter. -/
theorem C7_threads_write_only_bound_counter (K : Nat) (pad : Bool)
    (t : Fin K) (s s' : CCState K) (hstep : ccStep K pad t s s')
    (j : Fin K) (hj : s'.results j ≠ s.results j) :
    j = boundIdx K t ∧ Function.Injective (boundIdx K) := by
  constructor
  · cases hstep with
    | inc h =>
        by_contra hne
        exact hj (Function.update_noteq hne _ s.results)
  · intro a b hab
    simpa [boundIdx] using hab

/-- Witness for C7: the first increment of thread 0 from the initial
four-thread state changes counter 0, and the theorem places that write at
thread 0's bound index. -/
theorem C7_witness :
    (0 : Fin 4) = boundIdx 4 0 ∧ Function.Injective (boundIdx 4) :=
  C7_threads_write_only_bound_counter 4 false 0 (ccInit 4) _
    (ccStep.inc (ccInit 4) (by norm_num [ccInit, NUM_INCS])) 0
    (by simp [ccInit, boundIdx, Function.update_same])

end CppMisc
